import Mathlib

/-!
Verification of the BIP case-study processor (src/app_cloud.py) against its
natural-language specification.

Strings of the Python program are modelled as lists of characters
(PyStr := List Char).  Python string primitives used by the program
(str.strip, str.replace, str.split with and without argument, " ".join,
slicing, the in operator, dict.fromkeys, set membership) are embedded as
executable Lean functions below, each with a comment naming the Python
primitive it models.
-/

/-- Python strings, modelled as lists of characters. -/
abbrev PyStr := List Char

/-- The ASCII whitespace characters recognised by Python str.split() and
str.strip() with no argument.  -/
def isPySpace (c : Char) : Bool :=
  c = ' ' || c = '\t' || c = '\n' || c = '\r' || c = '\x0b' || c = '\x0c'

/-- Left part of Python str.strip(): drop leading whitespace. -/
def pyStripLeft (s : PyStr) : PyStr := s.dropWhile isPySpace

/-- Right part of Python str.strip(): drop trailing whitespace. -/
def pyStripRight (s : PyStr) : PyStr := (s.reverse.dropWhile isPySpace).reverse

/-- Python str.strip() with no argument: drop whitespace at both ends. -/
def pyStrip (s : PyStr) : PyStr := pyStripRight (pyStripLeft s)

/-- Worker for pyReplace.  The fuel argument only makes the recursion
structural; pyReplace always supplies fuel equal to the length of the
string, which is enough because every step consumes at least one
character, so the fuel-zero clause is never reached from pyReplace. -/
def pyReplaceGo (old new : PyStr) : Nat → PyStr → PyStr
  | _, [] => []
  | 0, s => s
  | n + 1, c :: cs =>
    if old.isPrefixOf (c :: cs) then new ++ pyReplaceGo old new n (cs.drop (old.length - 1))
    else c :: pyReplaceGo old new n cs

/-- Python str.replace(old, new): replace the leftmost non-overlapping
occurrences of old by new.  The program only calls str.replace with a
non-empty pattern (single characters in the sanitizer, the non-empty
placeholder tokens in replace_in_shape, guarded by "not placeholder"). -/
def pyReplace (old new s : PyStr) : PyStr := pyReplaceGo old new s.length s

/-- Python substring containment, the expression "pat in s". -/
def hasOcc (pat : PyStr) : PyStr → Bool
  | [] => pat.isEmpty
  | c :: cs => pat.isPrefixOf (c :: cs) || hasOcc pat cs

/-- Python str.split() with no argument: maximal runs of non-whitespace
characters; leading, trailing and repeated whitespace produce no empty
entries. -/
def pySplitWs (s : PyStr) : List PyStr :=
  (s.splitOnP isPySpace).filter (fun t => !t.isEmpty)

/-- Python str.split(". "): split on the exact two-character delimiter
consisting of a period followed by a space (the only str.split with an
argument in the program, app_cloud.py line 124).  Empty segments are
kept, exactly as in Python. -/
def pySplitOnDot : PyStr → List PyStr
  | [] => [[]]
  | [c] => [[c]]
  | c :: c2 :: cs =>
    if c = '.' ∧ c2 = ' ' then [] :: pySplitOnDot cs
    else
      match pySplitOnDot (c2 :: cs) with
      | [] => [[c]]
      | h :: t => (c :: h) :: t

/-- The sentence delimiter ". " used on app_cloud.py lines 124 and 126. -/
def sepDot : PyStr := ['.', ' ']

/-- Python str.lower(), on the ASCII range used by the program. -/
def pyLower (s : PyStr) : PyStr := s.map Char.toLower

/-- Sanitization of the case-study name, app_cloud.py lines 118-120:
strip surrounding whitespace, remove all literal parentheses
(name.replace("(", "").replace(")", "")), keep the first 6
whitespace-delimited tokens rejoined by single spaces, and substitute
the default "Case Study" if the result is empty (the Python "or"). -/
def sanitizeCaseName (s : PyStr) : PyStr :=
  let stripped := pyStrip s
  let noParens := pyReplace [')'] [] (pyReplace ['('] [] stripped)
  let joined := List.intercalate [' '] ((pySplitWs noParens).take 6)
  if joined = [] then "Case Study".data else joined

/-- Sanitization of the challenge / solution / results fields,
app_cloud.py lines 122-127: split on ". ", keep the first 4 segments
rejoined with ". " when more than 4 result, then strip surrounding
whitespace. -/
def sanitizeNarrative (s : PyStr) : PyStr :=
  let sentences := pySplitOnDot s
  pyStrip (if 4 < sentences.length then List.intercalate sepDot (sentences.take 4) else s)

/-- Python list(dict.fromkeys(l)): deduplicate keeping the first
occurrence of each element, preserving order.  The seen argument
carries the keys met so far. -/
def dedupKeys : List PyStr → List PyStr → List PyStr
  | [], _ => []
  | x :: xs, seen => if x ∈ seen then dedupKeys xs seen else x :: dedupKeys xs (x :: seen)

/-- Per-tag cleaning, app_cloud.py lines 132-133: remove all occurrences
of the marker character, strip whitespace, keep the first 3
whitespace-delimited tokens rejoined by single spaces. -/
def tagClean (t : PyStr) : PyStr :=
  List.intercalate [' '] ((pySplitWs (pyStrip (pyReplace ['#'] [] t))).take 3)

/-- The loop of app_cloud.py lines 130-135: clean each tag and keep the
non-empty results in order. -/
def cleanTagsList : List PyStr → List PyStr
  | [] => []
  | t :: ts =>
    let tag := tagClean t
    if tag = [] then cleanTagsList ts else tag :: cleanTagsList ts

/-- Hashtag sanitization, app_cloud.py lines 129-138: deduplicate the raw
tags preserving first-seen order, keep at most 3, clean each kept tag
dropping those that become empty, then pad with empty strings to 3
entries. -/
def sanitizeHashtags (hs : List PyStr) : List PyStr :=
  let deduped := (dedupKeys hs []).take 3
  let cleaned := cleanTagsList deduped
  cleaned ++ List.replicate (3 - cleaned.length) []

/-- Per-entry cleaning of a business category, app_cloud.py line 144:
keep the first 2 whitespace-delimited tokens rejoined by a space, then
strip. -/
def bcClean (x : PyStr) : PyStr :=
  pyStrip (List.intercalate [' '] ((pySplitWs x).take 2))

/-- The loop of app_cloud.py lines 141-147: clean each entry and keep it
when it is non-empty and its lower-cased form was not seen before. -/
def cleanBCsAux : List PyStr → List PyStr → List PyStr
  | [], _ => []
  | x :: xs, seen =>
    let item := bcClean x
    if item ≠ [] ∧ pyLower item ∉ seen then item :: cleanBCsAux xs (pyLower item :: seen)
    else cleanBCsAux xs seen

/-- Business-category sanitization, app_cloud.py lines 140-150:
deduplicated cleaning, padding with empty strings to 5 entries, then
truncation to the first 5. -/
def sanitizeBusinessCategories (bcs : List PyStr) : List PyStr :=
  let cleaned := cleanBCsAux bcs []
  (cleaned ++ List.replicate (5 - cleaned.length) []).take 5

/-- The raw record parsed from the model reply (json.loads result),
app_cloud.py line 113.  A key may be absent, which data.get and the
"or []" idiom turn into an empty string or empty list. -/
structure RawRecord where
  case_study_name : Option PyStr
  category : Option PyStr
  function : Option PyStr
  challenge : Option PyStr
  solution : Option PyStr
  results : Option PyStr
  business_categories : Option (List PyStr)
  hashtags : Option (List PyStr)
deriving DecidableEq

/-- The sanitized record obtained after app_cloud.py lines 118-150.
The category and function fields are passed through unmodified (they
are only read with data.get(..., "") at lines 156-157). -/
structure SanRecord where
  case_study_name : PyStr
  category : PyStr
  function : PyStr
  challenge : PyStr
  solution : PyStr
  results : PyStr
  hashtags : List PyStr
  business_categories : List PyStr
deriving DecidableEq

/-- The full field sanitization of app_cloud.py lines 118-150, applied
to a raw record with possibly missing keys. -/
def sanitizeRecord (d : RawRecord) : SanRecord where
  case_study_name := sanitizeCaseName (d.case_study_name.getD [])
  category := d.category.getD []
  function := d.function.getD []
  challenge := sanitizeNarrative (d.challenge.getD [])
  solution := sanitizeNarrative (d.solution.getD [])
  results := sanitizeNarrative (d.results.getD [])
  hashtags := sanitizeHashtags (d.hashtags.getD [])
  business_categories := sanitizeBusinessCategories (d.business_categories.getD [])

/-- Reinject a sanitized record as a raw record in which every key is
present, for expressing that sanitizing twice equals sanitizing once. -/
def sanToRaw (s : SanRecord) : RawRecord where
  case_study_name := some s.case_study_name
  category := some s.category
  function := some s.function
  challenge := some s.challenge
  solution := some s.solution
  results := some s.results
  business_categories := some s.business_categories
  hashtags := some s.hashtags

/-- A raw record in which every missing key has been replaced by the
empty value that data.get / "or []" substitute for it. -/
def fillRaw (d : RawRecord) : RawRecord where
  case_study_name := some (d.case_study_name.getD [])
  category := some (d.category.getD [])
  function := some (d.function.getD [])
  challenge := some (d.challenge.getD [])
  solution := some (d.solution.getD [])
  results := some (d.results.getD [])
  business_categories := some (d.business_categories.getD [])
  hashtags := some (d.hashtags.getD [])

/-- The transcript built by analyze_case, app_cloud.py line 58:
join the extracted texts with single spaces and truncate to 8000
characters. -/
def analyzeTranscript (texts : List PyStr) : PyStr :=
  (List.intercalate [' '] texts).take 8000

/-- A text run inside a pptx paragraph (python-pptx run object, of which
only the text attribute is read or written by the program). -/
structure PRun where
  text : PyStr
deriving DecidableEq

/-- A pptx paragraph: an ordered list of runs. -/
structure PPara where
  runs : List PRun
deriving DecidableEq

/-- A pptx shape: the has_text_frame capability flag and, when it holds
text, the ordered paragraphs of its text frame. -/
structure PShape where
  has_text_frame : Bool
  paragraphs : List PPara
deriving DecidableEq

/-- A pptx slide: an ordered list of shapes. -/
structure PSlide where
  shapes : List PShape
deriving DecidableEq

/-- A pptx presentation: an ordered list of slides. -/
structure Pres where
  slides : List PSlide
deriving DecidableEq

/-- replace_in_shape, app_cloud.py lines 97-107: if the shape has no
text frame or the placeholder is empty, return False and change
nothing; otherwise replace the placeholder inside every run that
contains it and report whether any run contained it.  The Python
in-place mutation is modelled by returning the new shape. -/
def replace_in_shape (shape : PShape) (ph value : PyStr) : PShape × Bool :=
  if !shape.has_text_frame || ph.isEmpty then (shape, false)
  else
    ({ shape with
        paragraphs := shape.paragraphs.map fun p =>
          { runs := p.runs.map fun r =>
              if hasOcc ph r.text then { text := pyReplace ph value r.text } else r } },
      shape.paragraphs.any fun p => p.runs.any fun r => hasOcc ph r.text)

/-- The fourteen literal placeholder tokens of app_cloud.py lines
155-168, in the order in which they are applied to every shape. -/
def placeholderTokens : List PyStr :=
  ["Insert name of case study".data, "Insert Category".data, "Insert Function".data,
   "Insert Challenge Here".data, "Insert Solution Here".data, "Insert Results Here".data,
   "TagOne".data, "TagTwo".data, "TagThree".data,
   "Business Category 1".data, "Business Category 2".data, "Business Category 3".data,
   "Business Category 4".data, "Business Category 5".data]

/-- The replacement values paired with the placeholder tokens, in the
same order (app_cloud.py lines 155-168). -/
def placeholderValues (d : SanRecord) : List PyStr :=
  [d.case_study_name, d.category, d.function, d.challenge, d.solution, d.results,
   d.hashtags.getD 0 [], d.hashtags.getD 1 [], d.hashtags.getD 2 [],
   d.business_categories.getD 0 [], d.business_categories.getD 1 [],
   d.business_categories.getD 2 [], d.business_categories.getD 3 [],
   d.business_categories.getD 4 []]

/-- The static placeholder map: token paired with replacement value. -/
def placeholderPairs (d : SanRecord) : List (PyStr × PyStr) :=
  placeholderTokens.zip (placeholderValues d)

/-- The fourteen successive replace_in_shape calls applied to one shape
by the loop of app_cloud.py lines 153-168 (their boolean results are
discarded by the source). -/
def applyPairsShape (shape : PShape) (ps : List (PyStr × PyStr)) : PShape :=
  ps.foldl (fun sh p => (replace_in_shape sh p.1 p.2).1) shape

/-- The template population of create_case_ppt, app_cloud.py lines
153-168: every shape of every slide receives the fourteen replacement
calls. -/
def populateTemplate (prs : Pres) (d : SanRecord) : Pres where
  slides := prs.slides.map fun sl =>
    { shapes := sl.shapes.map fun sh => applyPairsShape sh (placeholderPairs d) }

/-- The effect of the fourteen replacement calls on the text of one run:
each call replaces the token in the text exactly when the text contains
the token. -/
def runTextStep (t : PyStr) (p : PyStr × PyStr) : PyStr :=
  if hasOcc p.1 t then pyReplace p.1 p.2 t else t

/-- Folding runTextStep over the placeholder map. -/
def runFoldText (ps : List (PyStr × PyStr)) (t : PyStr) : PyStr :=
  ps.foldl runTextStep t

/-- Positional access to a slide, with the empty slide as default. -/
def slideAt (prs : Pres) (i : Nat) : PSlide := prs.slides.getD i { shapes := [] }

/-- Positional access to a shape. -/
def shapeAt (prs : Pres) (i j : Nat) : PShape :=
  (slideAt prs i).shapes.getD j { has_text_frame := false, paragraphs := [] }

/-- Positional access to the text of a run. -/
def runTextAt (prs : Pres) (i j k l : Nat) : PyStr :=
  (((shapeAt prs i j).paragraphs.getD k { runs := [] }).runs.getD l { text := [] }).text

/-- The per-file loop of app_cloud.py lines 191-218, abstracted over the
fallible part of the body (the analyze_case model call; none of the
other stages of the body can raise for a readable file).  The body has
no exception handler, so a raised error propagates out of the for loop:
the bundles produced by the files already processed remain (their
download buttons were already rendered), and no later file is
processed.  The loop caps the batch at 20 files (line 192). -/
def processUploadsGo {α β ε : Type} (step : α → Except ε β) : List α → List β × Option ε
  | [] => ([], none)
  | f :: fs =>
    match step f with
    | Except.error e => ([], some e)
    | Except.ok b =>
      let rest := processUploadsGo step fs
      (b :: rest.1, rest.2)

/-- The whole batch: first 20 uploaded files, processed in order until
the first uncaught error. -/
def processUploads {α β ε : Type} (step : α → Except ε β) (files : List α) :
    List β × Option ε :=
  processUploadsGo step (files.take 20)

/-! Small general-purpose lemmas. -/

theorem notEmpty_iff (t : PyStr) : (!t.isEmpty) = true ↔ t ≠ [] := by
  cases t <;> simp

theorem getD_map {α β : Type} (l : List α) (f : α → β) (d : α) :
    ∀ i : Nat, (l.map f).getD i (f d) = f (l.getD i d) := by
  induction l with
  | nil => intro i; simp [List.getD]
  | cons a l ih =>
    intro i
    cases i with
    | zero => simp [List.getD]
    | succ i => simp only [List.map_cons, List.getD_cons_succ]; exact ih i

/-! Claim C9: the Analyzer transcript. -/

/-- Claim C9: for every extracted text sequence, the transcript is the
elements joined with single spaces and truncated to at most 8000
characters, so its length is always at most 8000, and equal input
sequences yield equal transcripts. -/
theorem claim_C9 (texts : List PyStr) :
    (analyzeTranscript texts).length ≤ 8000 ∧
    ∀ texts2, texts = texts2 → analyzeTranscript texts = analyzeTranscript texts2 := by
  constructor
  · simp only [analyzeTranscript, List.length_take]
    omega
  · intro t2 h
    rw [h]

/-- Witness for claim C9 at a concrete extracted sequence. -/
theorem claim_C9_witness :
    (analyzeTranscript ["case".data, "study".data]).length ≤ 8000 ∧
    analyzeTranscript ["case".data, "study".data] =
      analyzeTranscript ["case".data, "study".data] :=
  ⟨(claim_C9 ["case".data, "study".data]).1,
   (claim_C9 ["case".data, "study".data]).2 ["case".data, "study".data] rfl⟩

/-! Claim C5: sanitizing the concrete raw name. -/

/-- Counterexample to claim C5 as stated: the raw name has six
whitespace-delimited tokens once the parentheses are removed, and the
code keeps the first six tokens, so the trailing token "Name" is kept
and the result is not the five-token string the claim asserts. -/
theorem claim_C5_cex :
    sanitizeCaseName ("  (Global) Risk Program Rollout Extended Name".data) ≠
      "Global Risk Program Rollout Extended".data := by
  decide

/-- Claim C5 amended: sanitizing the raw name yields
"Global Risk Program Rollout Extended Name" (parentheses removed, all
six tokens kept because the cap is six, trimmed). -/
theorem claim_C5_amended_thm :
    sanitizeCaseName ("  (Global) Risk Program Rollout Extended Name".data) =
      "Global Risk Program Rollout Extended Name".data := by
  decide

/-! Claim C8: the sanitizer treats missing keys as empty values. -/

/-- Claim C8: sanitization is insensitive to whether a key is absent or
present with the empty value data.get substitutes for it, and the
all-keys-missing record sanitizes to the documented defaults without
any failure. -/
theorem claim_C8 (d : RawRecord) :
    sanitizeRecord d = sanitizeRecord (fillRaw d) ∧
    sanitizeRecord
        { case_study_name := none, category := none, function := none,
          challenge := none, solution := none, results := none,
          business_categories := none, hashtags := none } =
      { case_study_name := "Case Study".data, category := [], function := [],
        challenge := [], solution := [], results := [],
        hashtags := [[], [], []], business_categories := [[], [], [], [], []] } := by
  constructor
  · cases d
    simp [sanitizeRecord, fillRaw]
  · decide

/-! Claim C7: a model-call failure inside the upload loop. -/

/-- Counterexample to claim C7 as stated: with three files where the
second fails, the third file produces no bundle, because the loop body
of app_cloud.py lines 191-218 contains no exception handler and the
raised error aborts the remaining iterations. -/
theorem claim_C7_cex :
    processUploads (fun n => if n = 2 then Except.error 0 else Except.ok n) [1, 2, 3] =
      ([1], some 0) ∧
    3 ∉ (processUploads (fun n => if n = 2 then Except.error 0 else Except.ok n) [1, 2, 3]).1 := by
  decide

/-- Claim C7 amended: in a batch of three files where the second file's
model call fails, the first file still produces its bundle (it was
completed before the failure), while the second and third files produce
none: the uncaught error aborts the rest of the batch. -/
theorem claim_C7_amended_thm {α β ε : Type} (step : α → Except ε β) (a b c : α)
    (ba : β) (e : ε) (ha : step a = Except.ok ba) (hb : step b = Except.error e) :
    processUploads step [a, b, c] = ([ba], some e) := by
  simp [processUploads, processUploadsGo, ha, hb]

/-- Witness for amended claim C7 at a concrete batch. -/
theorem claim_C7_witness :
    processUploads (fun n => if n = 5 then Except.error 7 else Except.ok n) [1, 5, 9] =
      ([1], some 7) :=
  claim_C7_amended_thm (fun n => if n = 5 then Except.error 7 else Except.ok n)
    1 5 9 1 7 rfl rfl

/-! Claim C10: the guards of replace_in_shape. -/

/-- Claim C10: invoking replace_in_shape with an empty placeholder, or
on a shape without a text frame, changes nothing and returns false; and
the guard matters because the empty string is a Python substring of
every run text. -/
theorem claim_C10 (shape : PShape) (ph value t : PyStr) :
    replace_in_shape shape [] value = (shape, false) ∧
    (shape.has_text_frame = false → replace_in_shape shape ph value = (shape, false)) ∧
    hasOcc [] t = true := by
  refine ⟨?_, ?_, ?_⟩
  · simp [replace_in_shape]
  · intro h
    simp [replace_in_shape, h]
  · cases t <;> simp [hasOcc, List.isPrefixOf]

/-- Witness for claim C10 at concrete shapes and a concrete run text. -/
theorem claim_C10_witness :
    replace_in_shape { has_text_frame := true, paragraphs := [] } [] ['v'] =
      ({ has_text_frame := true, paragraphs := [] }, false) ∧
    replace_in_shape { has_text_frame := false, paragraphs := [] } ['a'] ['v'] =
      ({ has_text_frame := false, paragraphs := [] }, false) ∧
    hasOcc [] "run".data = true :=
  ⟨(claim_C10 { has_text_frame := true, paragraphs := [] } ['a'] ['v'] "run".data).1,
   (claim_C10 { has_text_frame := false, paragraphs := [] } ['a'] ['v'] "run".data).2.1 rfl,
   (claim_C10 { has_text_frame := false, paragraphs := [] } ['a'] ['v'] "run".data).2.2⟩

/-! Lemmas about intercalate and whitespace splitting. -/

theorem intercalate_nil_sep (sep : PyStr) : List.intercalate sep [] = [] := by
  simp [List.intercalate]

theorem intercalate_single (sep a : PyStr) : List.intercalate sep [a] = a := by
  simp [List.intercalate]

theorem intercalate_cons_cons (sep a b : PyStr) (t : List PyStr) :
    List.intercalate sep (a :: b :: t) = a ++ sep ++ List.intercalate sep (b :: t) := by
  simp [List.intercalate, List.intersperse]

theorem splitOnP_allWs (u : PyStr) (h : ∀ c ∈ u, isPySpace c = true) :
    List.splitOnP isPySpace u = List.replicate (u.length + 1) [] := by
  induction u with
  | nil => simp
  | cons c cs ih =>
    rw [List.splitOnP_cons, if_pos (h c (List.mem_cons_self c cs)),
      ih (fun x hx => h x (List.mem_cons_of_mem c hx))]
    simp [List.replicate_succ]

theorem splitOnP_append_allWs (t u : PyStr) (h : ∀ c ∈ u, isPySpace c = true) :
    List.splitOnP isPySpace (t ++ u) =
      List.splitOnP isPySpace t ++ List.replicate u.length [] := by
  induction t with
  | nil =>
    simp only [List.nil_append, List.splitOnP_nil]
    rw [splitOnP_allWs u h, List.replicate_succ]
    rfl
  | cons c cs ih =>
    rw [List.cons_append, List.splitOnP_cons, List.splitOnP_cons]
    by_cases hc : isPySpace c = true
    · rw [if_pos hc, if_pos hc, ih, List.cons_append]
    · rw [if_neg hc, if_neg hc, ih]
      obtain ⟨h1, t1, hsp⟩ := List.exists_cons_of_ne_nil (List.splitOnP_ne_nil isPySpace cs)
      rw [hsp]
      simp [List.modifyHead]

theorem filter_replicate_nil (k : Nat) :
    (List.replicate k ([] : PyStr)).filter (fun t => !t.isEmpty) = [] := by
  induction k with
  | zero => rfl
  | succ k ih => simp [List.replicate_succ, ih]

theorem pySplitWs_append_ws (t u : PyStr) (h : ∀ c ∈ u, isPySpace c = true) :
    pySplitWs (t ++ u) = pySplitWs t := by
  unfold pySplitWs
  rw [splitOnP_append_allWs t u h, List.filter_append, filter_replicate_nil, List.append_nil]

theorem pySplitWs_cons_ws (c : Char) (s : PyStr) (h : isPySpace c = true) :
    pySplitWs (c :: s) = pySplitWs s := by
  unfold pySplitWs
  rw [List.splitOnP_cons, if_pos h]
  simp

theorem pySplitWs_leading_ws (v s : PyStr) (h : ∀ c ∈ v, isPySpace c = true) :
    pySplitWs (v ++ s) = pySplitWs s := by
  induction v with
  | nil => simp
  | cons c cs ih =>
    rw [List.cons_append, pySplitWs_cons_ws _ _ (h c (List.mem_cons_self c cs))]
    exact ih (fun x hx => h x (List.mem_cons_of_mem c hx))

theorem pyStripRight_decomp (s : PyStr) :
    ∃ u, (∀ c ∈ u, isPySpace c = true) ∧ s = pyStripRight s ++ u := by
  refine ⟨(s.reverse.takeWhile isPySpace).reverse, ?_, ?_⟩
  · intro c hc
    rw [List.mem_reverse] at hc
    exact List.mem_takeWhile_imp hc
  · conv_lhs => rw [← List.reverse_reverse s,
      ← List.takeWhile_append_dropWhile (p := isPySpace) (l := s.reverse), List.reverse_append]
    rfl

theorem pySplitWs_stripRight (s : PyStr) : pySplitWs (pyStripRight s) = pySplitWs s := by
  obtain ⟨u, hu, hdecomp⟩ := pyStripRight_decomp s
  conv_rhs => rw [hdecomp]
  rw [pySplitWs_append_ws _ u hu]

theorem pySplitWs_stripLeft (s : PyStr) : pySplitWs (pyStripLeft s) = pySplitWs s := by
  conv_rhs => rw [← List.takeWhile_append_dropWhile (p := isPySpace) (l := s)]
  rw [pySplitWs_leading_ws _ _ (fun c hc => List.mem_takeWhile_imp hc)]
  rfl

theorem pySplitWs_strip (s : PyStr) : pySplitWs (pyStrip s) = pySplitWs s := by
  unfold pyStrip
  rw [pySplitWs_stripRight, pySplitWs_stripLeft]

theorem splitOnP_chunk_not (p : Char → Bool) :
    ∀ (s : PyStr), ∀ ch ∈ List.splitOnP p s, ∀ c ∈ ch, p c = false := by
  intro s
  induction s with
  | nil =>
    intro ch hch c hc
    simp only [List.splitOnP_nil, List.mem_singleton] at hch
    subst hch
    simp at hc
  | cons x xs ih =>
    intro ch hch c hc
    rw [List.splitOnP_cons] at hch
    by_cases hx : p x = true
    · rw [if_pos hx] at hch
      rcases List.mem_cons.mp hch with rfl | hch
      · simp at hc
      · exact ih ch hch c hc
    · rw [if_neg hx] at hch
      obtain ⟨h1, t1, hsp⟩ := List.exists_cons_of_ne_nil (List.splitOnP_ne_nil p xs)
      rw [hsp] at hch
      simp only [List.modifyHead, List.mem_cons] at hch
      rcases hch with rfl | hch
      · rcases List.mem_cons.mp hc with rfl | hc
        · exact Bool.not_eq_true _ ▸ hx
        · exact ih h1 (hsp ▸ List.mem_cons_self h1 t1) c hc
      · exact ih ch (hsp ▸ List.mem_cons_of_mem h1 hch) c hc

theorem splitOnP_chunk_subset (p : Char → Bool) :
    ∀ (s : PyStr), ∀ ch ∈ List.splitOnP p s, ∀ c ∈ ch, c ∈ s := by
  intro s
  induction s with
  | nil =>
    intro ch hch c hc
    simp only [List.splitOnP_nil, List.mem_singleton] at hch
    subst hch
    simp at hc
  | cons x xs ih =>
    intro ch hch c hc
    rw [List.splitOnP_cons] at hch
    by_cases hx : p x = true
    · rw [if_pos hx] at hch
      rcases List.mem_cons.mp hch with rfl | hch
      · simp at hc
      · exact List.mem_cons_of_mem x (ih ch hch c hc)
    · rw [if_neg hx] at hch
      obtain ⟨h1, t1, hsp⟩ := List.exists_cons_of_ne_nil (List.splitOnP_ne_nil p xs)
      rw [hsp] at hch
      simp only [List.modifyHead, List.mem_cons] at hch
      rcases hch with rfl | hch
      · rcases List.mem_cons.mp hc with rfl | hc
        · exact List.mem_cons_self c _
        · exact List.mem_cons_of_mem x (ih h1 (hsp ▸ List.mem_cons_self h1 t1) c hc)
      · exact List.mem_cons_of_mem x (ih ch (hsp ▸ List.mem_cons_of_mem h1 hch) c hc)

theorem pySplitWs_tok (s : PyStr) :
    ∀ tok ∈ pySplitWs s, tok ≠ [] ∧ ∀ c ∈ tok, isPySpace c = false := by
  intro tok htok
  obtain ⟨hmem, hne⟩ := List.mem_filter.mp htok
  exact ⟨(notEmpty_iff tok).mp hne, fun c hc => splitOnP_chunk_not isPySpace s tok hmem c hc⟩

theorem pySplitWs_tok_subset (s : PyStr) :
    ∀ tok ∈ pySplitWs s, ∀ c ∈ tok, c ∈ s := by
  intro tok htok
  obtain ⟨hmem, _⟩ := List.mem_filter.mp htok
  exact splitOnP_chunk_subset isPySpace s tok hmem

theorem pySplitWs_intercalate (toks : List PyStr)
    (h : ∀ tok ∈ toks, tok ≠ [] ∧ ∀ c ∈ tok, isPySpace c = false) :
    pySplitWs (List.intercalate [' '] toks) = toks := by
  induction toks with
  | nil => simp [pySplitWs, List.intercalate]
  | cons a toks ih =>
    cases toks with
    | nil =>
      obtain ⟨hne, hws⟩ := h a (List.mem_cons_self a [])
      unfold pySplitWs
      rw [intercalate_single, List.splitOnP_eq_single _ _ (fun x hx => by simp [hws x hx])]
      simp [(notEmpty_iff a).mpr hne]
    | cons b toks2 =>
      obtain ⟨hne, hws⟩ := h a (List.mem_cons_self a _)
      rw [intercalate_cons_cons, List.append_assoc, List.singleton_append]
      unfold pySplitWs
      rw [List.splitOnP_first isPySpace a (fun x hx => by simp [hws x hx]) ' ' (by decide)]
      rw [List.filter_cons_of_pos (by simpa using (notEmpty_iff a).mpr hne)]
      have ih2 := ih (fun tok htok => h tok (List.mem_cons_of_mem a htok))
      unfold pySplitWs at ih2
      rw [ih2]

/-! Lemmas about the hashtag pipeline. -/

theorem cleanTagsList_length_le (l : List PyStr) : (cleanTagsList l).length ≤ l.length := by
  induction l with
  | nil => simp [cleanTagsList]
  | cons t ts ih =>
    simp only [cleanTagsList]
    split
    · exact Nat.le_succ_of_le ih
    · simpa using Nat.succ_le_succ ih

theorem cleanTagsList_sublist (l : List PyStr) :
    (cleanTagsList l).Sublist (l.map tagClean) := by
  induction l with
  | nil => simp [cleanTagsList]
  | cons t ts ih =>
    simp only [cleanTagsList, List.map_cons]
    split
    · exact ih.cons _
    · exact ih.cons₂ _

theorem cleanTagsList_mem (l : List PyStr) :
    ∀ a ∈ cleanTagsList l, a ≠ [] ∧ ∃ t ∈ l, a = tagClean t := by
  induction l with
  | nil => simp [cleanTagsList]
  | cons t ts ih =>
    intro a ha
    simp only [cleanTagsList] at ha
    split at ha
    · obtain ⟨h1, t0, ht0, h2⟩ := ih a ha
      exact ⟨h1, t0, List.mem_cons_of_mem t ht0, h2⟩
    · rcases List.mem_cons.mp ha with rfl | ha
      · exact ⟨by assumption, t, List.mem_cons_self t ts, rfl⟩
      · obtain ⟨h1, t0, ht0, h2⟩ := ih a ha
        exact ⟨h1, t0, List.mem_cons_of_mem t ht0, h2⟩

theorem dedupKeys_sublist (l : List PyStr) : ∀ seen, (dedupKeys l seen).Sublist l := by
  induction l with
  | nil => intro seen; simp [dedupKeys]
  | cons x xs ih =>
    intro seen
    simp only [dedupKeys]
    split
    · exact (ih seen).cons x
    · exact (ih (x :: seen)).cons₂ x

theorem filter_pad (cleaned : List PyStr) (k : Nat) (h : ∀ a ∈ cleaned, a ≠ []) :
    (cleaned ++ List.replicate k []).filter (fun t => !t.isEmpty) = cleaned := by
  rw [List.filter_append, filter_replicate_nil, List.append_nil]
  exact List.filter_eq_self.mpr (fun a ha => (notEmpty_iff a).mpr (h a ha))

/-- Claim C1 amended: the sanitized hashtag sequence always has length
exactly 3, consists of its non-empty entries followed by empty-string
padding, and the non-empty entries are, in their original relative
order, cleaned forms of distinct raw entries.  The claimed absence of
duplicate non-empty entries does NOT hold, because deduplication runs
on the raw tags before the per-tag cleaning, and distinct raw tags can
clean to the same string. -/
theorem claim_C1_amended_thm (hs : List PyStr) :
    (sanitizeHashtags hs).length = 3 ∧
    sanitizeHashtags hs =
      (sanitizeHashtags hs).filter (fun t => !t.isEmpty) ++
        List.replicate (3 - ((sanitizeHashtags hs).filter (fun t => !t.isEmpty)).length) [] ∧
    ((sanitizeHashtags hs).filter (fun t => !t.isEmpty)).Sublist (hs.map tagClean) := by
  have hne : ∀ a ∈ cleanTagsList ((dedupKeys hs []).take 3), a ≠ [] :=
    fun a ha => (cleanTagsList_mem _ a ha).1
  have hfil : (sanitizeHashtags hs).filter (fun t => !t.isEmpty) =
      cleanTagsList ((dedupKeys hs []).take 3) := by
    simp only [sanitizeHashtags]
    exact filter_pad _ _ hne
  have hlen : (cleanTagsList ((dedupKeys hs []).take 3)).length ≤ 3 :=
    le_trans (cleanTagsList_length_le _) (List.length_take_le 3 _)
  refine ⟨?_, ?_, ?_⟩
  · simp only [sanitizeHashtags, List.length_append, List.length_replicate]
    omega
  · rw [hfil]
    simp only [sanitizeHashtags]
  · rw [hfil]
    exact ((cleanTagsList_sublist _).trans
      (((List.take_sublist 3 _).trans (dedupKeys_sublist hs [])).map tagClean))

/-- Counterexample to claim C1 as stated: the raw tags "#x" and "x" are
distinct, so dict.fromkeys keeps both, and both clean to "x", giving a
sanitized hashtag sequence with a duplicate non-empty entry. -/
theorem claim_C1_cex :
    sanitizeHashtags ["#x".data, "x".data] = ["x".data, "x".data, []] ∧
    ¬ ((sanitizeHashtags ["#x".data, "x".data]).filter (fun t => !t.isEmpty)).Nodup := by
  decide

/-! Lemmas about the business-category pipeline. -/

theorem cleanBCsAux_spec (l : List PyStr) :
    ∀ seen,
      (∀ a ∈ cleanBCsAux l seen, a ≠ [] ∧ pyLower a ∉ seen ∧ ∃ x ∈ l, a = bcClean x) ∧
      (cleanBCsAux l seen).Pairwise (fun a b => pyLower a ≠ pyLower b) := by
  induction l with
  | nil => intro seen; simp [cleanBCsAux]
  | cons x xs ih =>
    intro seen
    simp only [cleanBCsAux]
    split
    case isTrue h =>
      obtain ⟨hne, hns⟩ := h
      constructor
      · intro a ha
        rcases List.mem_cons.mp ha with rfl | ha
        · exact ⟨hne, hns, x, List.mem_cons_self x xs, rfl⟩
        · obtain ⟨a1, a2, x0, hx0, hbc⟩ := (ih (pyLower (bcClean x) :: seen)).1 a ha
          exact ⟨a1, fun hm => a2 (List.mem_cons_of_mem _ hm), x0,
            List.mem_cons_of_mem x hx0, hbc⟩
      · refine List.Pairwise.cons ?_ (ih (pyLower (bcClean x) :: seen)).2
        intro b hb
        obtain ⟨_, b2, _⟩ := (ih (pyLower (bcClean x) :: seen)).1 b hb
        exact fun he => b2 (he ▸ List.mem_cons_self _ _)
    case isFalse h =>
      constructor
      · intro a ha
        obtain ⟨a1, a2, x0, hx0, hbc⟩ := (ih seen).1 a ha
        exact ⟨a1, a2, x0, List.mem_cons_of_mem x hx0, hbc⟩
      · exact (ih seen).2

theorem cleanBCsAux_sublist (l : List PyStr) :
    ∀ seen, (cleanBCsAux l seen).Sublist (l.map bcClean) := by
  induction l with
  | nil => intro seen; simp [cleanBCsAux]
  | cons x xs ih =>
    intro seen
    simp only [cleanBCsAux, List.map_cons]
    split
    · exact (ih _).cons₂ _
    · exact (ih seen).cons _

theorem bcClean_tokens (x : PyStr) : pySplitWs (bcClean x) = (pySplitWs x).take 2 := by
  unfold bcClean
  rw [pySplitWs_strip]
  exact pySplitWs_intercalate _
    (fun tok htok => pySplitWs_tok x tok (List.take_subset 2 _ htok))

/-- Claim C2: the sanitized business-category sequence always has
length exactly 5; it is its non-empty entries followed by empty-string
padding; the non-empty entries are pairwise distinct case-insensitively
and are, in original order, cleaned forms of input entries; and every
entry has at most 2 whitespace-delimited tokens. -/
theorem claim_C2 (bcs : List PyStr) :
    (sanitizeBusinessCategories bcs).length = 5 ∧
    ((sanitizeBusinessCategories bcs).filter (fun t => !t.isEmpty)).Pairwise
      (fun a b => pyLower a ≠ pyLower b) ∧
    sanitizeBusinessCategories bcs =
      (sanitizeBusinessCategories bcs).filter (fun t => !t.isEmpty) ++
        List.replicate
          (5 - ((sanitizeBusinessCategories bcs).filter (fun t => !t.isEmpty)).length) [] ∧
    ((sanitizeBusinessCategories bcs).filter (fun t => !t.isEmpty)).Sublist
      (bcs.map bcClean) ∧
    ∀ a ∈ sanitizeBusinessCategories bcs, (pySplitWs a).length ≤ 2 := by
  have hspec := cleanBCsAux_spec bcs []
  have hne : ∀ a ∈ cleanBCsAux bcs [], a ≠ [] := fun a ha => (hspec.1 a ha).1
  have hfil : (sanitizeBusinessCategories bcs).filter (fun t => !t.isEmpty) =
      (cleanBCsAux bcs []).take 5 := by
    simp only [sanitizeBusinessCategories]
    rcases le_or_lt 5 (cleanBCsAux bcs []).length with h5 | h5
    · have hz : 5 - (cleanBCsAux bcs []).length = 0 := Nat.sub_eq_zero_of_le h5
      rw [hz, List.replicate_zero, List.append_nil]
      rw [List.filter_eq_self.mpr
        (fun a ha => (notEmpty_iff a).mpr (hne a (List.take_subset 5 _ ha)))]
    · have hlen5 : ((cleanBCsAux bcs [] ++
          List.replicate (5 - (cleanBCsAux bcs []).length) ([] : PyStr))).length = 5 := by
        simp only [List.length_append, List.length_replicate]
        omega
      rw [List.take_of_length_le (le_of_eq hlen5), filter_pad _ _ hne,
        List.take_of_length_le (le_of_lt h5)]
  refine ⟨?_, ?_, ?_, ?_, ?_⟩
  · simp only [sanitizeBusinessCategories, List.length_take, List.length_append,
      List.length_replicate]
    omega
  · rw [hfil]
    exact (hspec.2).sublist (List.take_sublist 5 _)
  · rw [hfil]
    simp only [sanitizeBusinessCategories]
    rcases le_or_lt 5 (cleanBCsAux bcs []).length with h5 | h5
    · have hz : 5 - (cleanBCsAux bcs []).length = 0 := Nat.sub_eq_zero_of_le h5
      have hz2 : 5 - ((cleanBCsAux bcs []).take 5).length = 0 := by
        simp only [List.length_take]
        omega
      rw [hz, hz2, List.replicate_zero, List.append_nil, List.append_nil]
    · have htk : (cleanBCsAux bcs []).take 5 = cleanBCsAux bcs [] :=
        List.take_of_length_le (le_of_lt h5)
      have hlen5 : ((cleanBCsAux bcs [] ++
          List.replicate (5 - (cleanBCsAux bcs []).length) ([] : PyStr))).length = 5 := by
        simp only [List.length_append, List.length_replicate]
        omega
      rw [List.take_of_length_le (le_of_eq hlen5), htk]
  · rw [hfil]
    exact (List.take_sublist 5 _).trans (cleanBCsAux_sublist bcs [])
  · intro a ha
    have ha2 := List.take_subset 5 _ ha
    rcases List.mem_append.mp ha2 with hclean | hrep
    · obtain ⟨_, _, x0, _, hbc⟩ := hspec.1 a hclean
      rw [hbc, bcClean_tokens]
      exact le_trans (List.length_take_le 2 _) (le_refl 2)
    · rw [List.eq_of_mem_replicate hrep]
      simp [pySplitWs]
/-! Lemmas about splitting on the ". " delimiter. -/

theorem pySplitOnDot_nil : pySplitOnDot [] = [[]] := rfl

theorem pySplitOnDot_single (c : Char) : pySplitOnDot [c] = [[c]] := rfl

theorem pySplitOnDot_cons2 (c c2 : Char) (cs : PyStr) :
    pySplitOnDot (c :: c2 :: cs) =
      if c = '.' ∧ c2 = ' ' then [] :: pySplitOnDot cs
      else
        match pySplitOnDot (c2 :: cs) with
        | [] => [[c]]
        | h :: t => (c :: h) :: t := rfl

theorem sepDot_isPrefixOf_pair (c c2 : Char) (cs : PyStr) :
    sepDot.isPrefixOf (c :: c2 :: cs) = true ↔ c = '.' ∧ c2 = ' ' := by
  show (('.' == c) && ((' ' == c2) && List.isPrefixOf [] cs)) = true ↔ c = '.' ∧ c2 = ' '
  simp only [List.isPrefixOf, Bool.and_true, Bool.and_eq_true, beq_iff_eq]
  exact ⟨fun ⟨a, b⟩ => ⟨a.symm, b.symm⟩, fun ⟨a, b⟩ => ⟨a.symm, b.symm⟩⟩

theorem sepDot_isPrefixOf_single (c : Char) : sepDot.isPrefixOf [c] = false := by
  simp [sepDot, List.isPrefixOf]

theorem hasOcc_cons_elim (pat : PyStr) (c : Char) (cs : PyStr)
    (h : hasOcc pat (c :: cs) = false) :
    pat.isPrefixOf (c :: cs) = false ∧ hasOcc pat cs = false := by
  simpa [hasOcc] using h

theorem pySplitOnDot_ne_nil (s : PyStr) : pySplitOnDot s ≠ [] := by
  induction s using pySplitOnDot.induct with
  | case1 => rw [pySplitOnDot_nil]; simp
  | case2 c => rw [pySplitOnDot_single]; simp
  | case3 c c2 cs hif ih => rw [pySplitOnDot_cons2, if_pos hif]; simp
  | case4 c c2 cs hif hm ih => exact absurd hm ih
  | case5 c c2 cs hif h1 t1 hm ih =>
    rw [pySplitOnDot_cons2, if_neg hif, hm]
    simp

theorem pySplitOnDot_cons_len (c c2 : Char) (cs : PyStr) (h : ¬(c = '.' ∧ c2 = ' ')) :
    (pySplitOnDot (c :: c2 :: cs)).length = (pySplitOnDot (c2 :: cs)).length := by
  rw [pySplitOnDot_cons2, if_neg h]
  obtain ⟨h1, t1, hsp⟩ := List.exists_cons_of_ne_nil (pySplitOnDot_ne_nil (c2 :: cs))
  rw [hsp]
  simp

theorem pySplitOnDot_no_occ (s : PyStr) :
    hasOcc sepDot s = false → pySplitOnDot s = [s] := by
  induction s using pySplitOnDot.induct with
  | case1 => intro _; rfl
  | case2 c => intro _; rfl
  | case3 c c2 cs hif ih =>
    intro h
    have hp := (hasOcc_cons_elim _ _ _ h).1
    rw [(sepDot_isPrefixOf_pair c c2 cs).mpr hif] at hp
    exact absurd hp (by simp)
  | case4 c c2 cs hif hm ih => exact absurd hm (pySplitOnDot_ne_nil _)
  | case5 c c2 cs hif h1 t1 hm ih =>
    intro h
    have h2 := (hasOcc_cons_elim _ _ _ h).2
    rw [pySplitOnDot_cons2, if_neg hif, ih h2]

theorem pySplitOnDot_boundary (r : PyStr) :
    ∀ p : PyStr, hasOcc sepDot p = false →
      pySplitOnDot (p ++ sepDot ++ r) = p :: pySplitOnDot r := by
  intro p
  induction p using pySplitOnDot.induct with
  | case1 =>
    intro _
    show pySplitOnDot ([] ++ ['.', ' '] ++ r) = [] :: pySplitOnDot r
    rw [show ([] ++ ['.', ' '] ++ r : PyStr) = '.' :: ' ' :: r from by simp]
    rw [pySplitOnDot_cons2, if_pos ⟨rfl, rfl⟩]
  | case2 c =>
    intro h
    have hp := (hasOcc_cons_elim _ _ _ h).1
    show pySplitOnDot ([c] ++ ['.', ' '] ++ r) = [c] :: pySplitOnDot r
    rw [show ([c] ++ ['.', ' '] ++ r : PyStr) = c :: '.' :: ' ' :: r from by simp]
    rw [pySplitOnDot_cons2, if_neg (by simp),
      pySplitOnDot_cons2, if_pos ⟨rfl, rfl⟩]
  | case3 c c2 cs hif ih =>
    intro h
    have hp := (hasOcc_cons_elim _ _ _ h).1
    rw [(sepDot_isPrefixOf_pair c c2 cs).mpr hif] at hp
    exact absurd hp (by simp)
  | case4 c c2 cs hif hm ih => exact absurd hm (pySplitOnDot_ne_nil _)
  | case5 c c2 cs hif h1 t1 hm ih =>
    intro h
    have h2 := (hasOcc_cons_elim _ _ _ h).2
    have hrec := ih h2
    show pySplitOnDot (c :: c2 :: (cs ++ sepDot ++ r)) = (c :: c2 :: cs) :: pySplitOnDot r
    have harr : c2 :: (cs ++ sepDot ++ r) = (c2 :: cs) ++ sepDot ++ r := by simp
    rw [pySplitOnDot_cons2, if_neg hif, harr, hrec]

theorem pySplitOnDot_intercalate (parts : List PyStr) (hne : parts ≠ [])
    (h : ∀ p ∈ parts, hasOcc sepDot p = false) :
    pySplitOnDot (List.intercalate sepDot parts) = parts := by
  induction parts with
  | nil => exact absurd rfl hne
  | cons a parts ih =>
    cases parts with
    | nil =>
      rw [intercalate_single]
      exact pySplitOnDot_no_occ a (h a (List.mem_cons_self a []))
    | cons b parts2 =>
      rw [intercalate_cons_cons,
        pySplitOnDot_boundary _ a (h a (List.mem_cons_self a _)),
        ih (List.cons_ne_nil b parts2) (fun p hp => h p (List.mem_cons_of_mem a hp))]

theorem pySplitOnDot_head (s : PyStr) :
    ∀ h t, pySplitOnDot s = h :: t → ∃ u, s = h ++ u := by
  induction s using pySplitOnDot.induct with
  | case1 =>
    intro h t he
    rw [pySplitOnDot_nil] at he
    injection he with he1 _
    exact ⟨[], by rw [← he1]; rfl⟩
  | case2 c =>
    intro h t he
    rw [pySplitOnDot_single] at he
    injection he with he1 _
    exact ⟨[], by rw [← he1]; rfl⟩
  | case3 c c2 cs hif ih =>
    intro h t he
    rw [pySplitOnDot_cons2, if_pos hif] at he
    injection he with he1 _
    exact ⟨c :: c2 :: cs, by rw [← he1]; rfl⟩
  | case4 c c2 cs hif hm ih => exact absurd hm (pySplitOnDot_ne_nil _)
  | case5 c c2 cs hif h1 t1 hm ih =>
    intro h t he
    rw [pySplitOnDot_cons2, if_neg hif, hm] at he
    injection he with he1 he2
    obtain ⟨u, hu⟩ := ih h1 t1 hm
    exact ⟨u, by rw [← he1]; simp [hu]⟩

theorem pySplitOnDot_chunks (s : PyStr) :
    ∀ ch ∈ pySplitOnDot s, hasOcc sepDot ch = false := by
  induction s using pySplitOnDot.induct with
  | case1 =>
    intro ch hch
    rw [pySplitOnDot_nil] at hch
    simp only [List.mem_singleton] at hch
    subst hch
    rfl
  | case2 c =>
    intro ch hch
    rw [pySplitOnDot_single] at hch
    simp only [List.mem_singleton] at hch
    subst hch
    show (sepDot.isPrefixOf [c] || hasOcc sepDot []) = false
    rw [sepDot_isPrefixOf_single]
    rfl
  | case3 c c2 cs hif ih =>
    intro ch hch
    rw [pySplitOnDot_cons2, if_pos hif] at hch
    rcases List.mem_cons.mp hch with rfl | hch
    · rfl
    · exact ih ch hch
  | case4 c c2 cs hif hm ih => exact absurd hm (pySplitOnDot_ne_nil _)
  | case5 c c2 cs hif h1 t1 hm ih =>
    intro ch hch
    rw [pySplitOnDot_cons2, if_neg hif, hm] at hch
    rcases List.mem_cons.mp hch with rfl | hch
    · have hh1 : hasOcc sepDot h1 = false := ih h1 (hm ▸ List.mem_cons_self h1 t1)
      show (sepDot.isPrefixOf (c :: h1) || hasOcc sepDot h1) = false
      rw [hh1, Bool.or_false]
      cases h1 with
      | nil => exact sepDot_isPrefixOf_single c
      | cons d h1t =>
        obtain ⟨u, hu⟩ := pySplitOnDot_head (c2 :: cs) (d :: h1t) t1 hm
        have hd : d = c2 := by
          injection hu with hu1 _
          exact hu1.symm
        subst hd
        rcases Bool.eq_false_or_eq_true (sepDot.isPrefixOf (c :: d :: h1t)) with htr | hf
        · exact absurd ((sepDot_isPrefixOf_pair c d h1t).mp htr) hif
        · exact hf
    · exact ih ch (hm ▸ List.mem_cons_of_mem h1 hch)

theorem pySplitOnDot_stripLeft_len (s : PyStr) :
    (pySplitOnDot (pyStripLeft s)).length = (pySplitOnDot s).length := by
  induction s with
  | nil => rfl
  | cons c cs ih =>
    by_cases hc : isPySpace c = true
    · have hcd : ¬(c = '.' ∧ True) := by
        intro hand
        rw [hand.1] at hc
        exact absurd hc (by decide)
      rw [show pyStripLeft (c :: cs) = pyStripLeft cs from by
        simp [pyStripLeft, List.dropWhile, hc]]
      rw [ih]
      cases cs with
      | nil => rfl
      | cons c2 cs2 =>
        rw [pySplitOnDot_cons_len c c2 cs2 (fun hand => hcd ⟨hand.1, trivial⟩)]
    · rw [show pyStripLeft (c :: cs) = c :: cs from by
        simp [pyStripLeft, List.dropWhile, hc]]

theorem pySplitOnDot_append_len (u : PyStr) :
    ∀ p : PyStr, (pySplitOnDot p).length ≤ (pySplitOnDot (p ++ u)).length := by
  intro p
  induction p using pySplitOnDot.induct with
  | case1 =>
    rw [List.nil_append, pySplitOnDot_nil]
    have h1 := List.length_pos.mpr (pySplitOnDot_ne_nil u)
    simpa using h1
  | case2 c =>
    rw [pySplitOnDot_single]
    have h1 := List.length_pos.mpr (pySplitOnDot_ne_nil ([c] ++ u))
    simpa using h1
  | case3 c c2 cs hif ih =>
    obtain ⟨rfl, rfl⟩ := hif
    show (pySplitOnDot ('.' :: ' ' :: cs)).length ≤
      (pySplitOnDot ('.' :: ' ' :: (cs ++ u))).length
    rw [pySplitOnDot_cons2, if_pos ⟨rfl, rfl⟩, pySplitOnDot_cons2, if_pos ⟨rfl, rfl⟩]
    simpa using ih
  | case4 c c2 cs hif hm ih => exact absurd hm (pySplitOnDot_ne_nil _)
  | case5 c c2 cs hif h1 t1 hm ih =>
    rw [pySplitOnDot_cons_len c c2 cs hif]
    show _ ≤ (pySplitOnDot (c :: c2 :: (cs ++ u))).length
    rw [pySplitOnDot_cons_len c c2 (cs ++ u) hif]
    exact ih

theorem pySplitOnDot_strip_len (s : PyStr) :
    (pySplitOnDot (pyStrip s)).length ≤ (pySplitOnDot s).length := by
  have h1 : (pySplitOnDot (pyStripRight (pyStripLeft s))).length ≤
      (pySplitOnDot (pyStripLeft s)).length := by
    obtain ⟨u, _, hd⟩ := pyStripRight_decomp (pyStripLeft s)
    conv_rhs => rw [hd]
    exact pySplitOnDot_append_len u _
  calc (pySplitOnDot (pyStrip s)).length
      ≤ (pySplitOnDot (pyStripLeft s)).length := h1
    _ = (pySplitOnDot s).length := pySplitOnDot_stripLeft_len s

/-- Claim C4: sanitization of a narrative field splits on the exact
delimiter ". " and keeps only the first 4 segments rejoined with ". ";
in particular a field made of 6 delimiter-free sentences joined by ". "
sanitizes to exactly the first 4 sentences rejoined with ". " (the
final strip is the identity here, as the hstrip hypothesis records). -/
theorem claim_C4 (s1 s2 s3 s4 s5 s6 : PyStr)
    (h1 : hasOcc sepDot s1 = false) (h2 : hasOcc sepDot s2 = false)
    (h3 : hasOcc sepDot s3 = false) (h4 : hasOcc sepDot s4 = false)
    (h5 : hasOcc sepDot s5 = false) (h6 : hasOcc sepDot s6 = false)
    (hstrip : pyStrip (List.intercalate sepDot [s1, s2, s3, s4]) =
      List.intercalate sepDot [s1, s2, s3, s4]) :
    sanitizeNarrative (List.intercalate sepDot [s1, s2, s3, s4, s5, s6]) =
      List.intercalate sepDot [s1, s2, s3, s4] := by
  have hsplit := pySplitOnDot_intercalate [s1, s2, s3, s4, s5, s6] (by simp)
    (by intro p hp; fin_cases hp <;> assumption)
  simp only [sanitizeNarrative]
  rw [hsplit, if_pos (by simp)]
  rw [show List.take 4 [s1, s2, s3, s4, s5, s6] = [s1, s2, s3, s4] from rfl]
  exact hstrip

/-- Witness for claim C4 at a concrete 6-sentence field. -/
theorem claim_C4_witness :
    sanitizeNarrative (List.intercalate sepDot
      ["One".data, "Two".data, "Three".data, "Four".data, "Five".data, "Six".data]) =
      List.intercalate sepDot ["One".data, "Two".data, "Three".data, "Four".data] :=
  claim_C4 "One".data "Two".data "Three".data "Four".data "Five".data "Six".data
    (by decide) (by decide) (by decide) (by decide) (by decide) (by decide) (by decide)

/-! Lemmas about the template populator. -/

theorem runTextStep_clear (t : PyStr) (p : PyStr × PyStr) (h : hasOcc p.1 t = false) :
    runTextStep t p = t := by
  simp [runTextStep, h]

theorem runFoldText_clear (ps : List (PyStr × PyStr)) (t : PyStr)
    (h : ∀ p ∈ ps, hasOcc p.1 t = false) : runFoldText ps t = t := by
  induction ps with
  | nil => rfl
  | cons p ps ih =>
    show runFoldText ps (runTextStep t p) = t
    rw [runTextStep_clear t p (h p (List.mem_cons_self p ps))]
    exact ih (fun q hq => h q (List.mem_cons_of_mem p hq))

theorem applyPairsShape_no_frame (sh : PShape) (h : sh.has_text_frame = false) :
    ∀ ps, applyPairsShape sh ps = sh := by
  intro ps
  induction ps with
  | nil => rfl
  | cons p ps ih =>
    show applyPairsShape (replace_in_shape sh p.1 p.2).1 ps = sh
    rw [show (replace_in_shape sh p.1 p.2).1 = sh from by simp [replace_in_shape, h]]
    exact ih

theorem replace_in_shape_fst (sh : PShape) (ph v : PyStr)
    (htf : sh.has_text_frame = true) (hph : ph ≠ []) :
    (replace_in_shape sh ph v).1 =
      { has_text_frame := true,
        paragraphs := sh.paragraphs.map fun p =>
          { runs := p.runs.map fun r => { text := runTextStep r.text (ph, v) } } } := by
  have hcond : (!sh.has_text_frame || ph.isEmpty) = false := by
    rw [htf]
    cases hq : ph with
    | nil => exact absurd hq hph
    | cons a as => rfl
  simp only [replace_in_shape, hcond, Bool.false_eq_true, if_false]
  cases sh with
  | mk tf paras =>
    simp only at htf
    subst htf
    congr 1
    apply List.map_congr_left
    intro p _
    congr 1
    apply List.map_congr_left
    intro r _
    by_cases hr : hasOcc ph r.text = true
    · simp [hr, runTextStep]
    · simp only [Bool.not_eq_true] at hr
      simp [hr, runTextStep]

theorem applyPairsShape_decomp (ps : List (PyStr × PyStr)) (hps : ∀ p ∈ ps, p.1 ≠ []) :
    ∀ sh : PShape, sh.has_text_frame = true →
      applyPairsShape sh ps =
        { has_text_frame := true,
          paragraphs := sh.paragraphs.map fun para =>
            { runs := para.runs.map fun r => { text := runFoldText ps r.text } } } := by
  induction ps with
  | nil =>
    intro sh htf
    show sh = _
    have hfun : (fun (r : PRun) => ({ text := runFoldText [] r.text } : PRun)) = id :=
      funext fun r => rfl
    simp only [hfun, List.map_id]
    have hfun2 : (fun (para : PPara) => ({ runs := para.runs } : PPara)) = id :=
      funext fun para => rfl
    simp only [hfun2, List.map_id]
    cases sh with
    | mk tf paras =>
      simp only at htf
      subst htf
      rfl
  | cons p ps ih =>
    intro sh htf
    show applyPairsShape (replace_in_shape sh p.1 p.2).1 ps = _
    rw [replace_in_shape_fst sh p.1 p.2 htf (hps p (List.mem_cons_self p ps))]
    rw [ih (fun q hq => hps q (List.mem_cons_of_mem p hq)) _ rfl]
    congr 1
    rw [List.map_map]
    apply List.map_congr_left
    intro para _
    simp only [Function.comp]
    congr 1
    rw [List.map_map]
    apply List.map_congr_left
    intro r _
    rfl

theorem placeholderTokens_ne_nil : ∀ t_ ∈ placeholderTokens, t_ ≠ [] := by decide

theorem placeholderPairs_fst (d : SanRecord) :
    ∀ p ∈ placeholderPairs d, p.1 ∈ placeholderTokens := by
  intro p hp
  exact (List.of_mem_zip (show (p.1, p.2) ∈ placeholderTokens.zip (placeholderValues d)
    from hp)).1

theorem hasOcc_nil_of_ne (pat : PyStr) (h : pat ≠ []) : hasOcc pat [] = false := by
  cases hq : pat with
  | nil => exact absurd hq h
  | cons a as => rfl

theorem runFoldText_nil_text (d : SanRecord) : runFoldText (placeholderPairs d) [] = [] :=
  runFoldText_clear _ _ (fun p hp =>
    hasOcc_nil_of_ne p.1 (placeholderTokens_ne_nil p.1 (placeholderPairs_fst d p hp)))

theorem runTextAt_populate_gen (ps : List (PyStr × PyStr))
    (hps : ∀ p ∈ ps, p.1 ≠ []) (prs : Pres) (i j k l : Nat)
    (htf : (shapeAt prs i j).has_text_frame = true) :
    runTextAt (Pres.mk (prs.slides.map (fun sl =>
        PSlide.mk (sl.shapes.map (fun sh => applyPairsShape sh ps))))) i j k l =
      runFoldText ps (runTextAt prs i j k l) := by
  have hps0 : runFoldText ps [] = [] :=
    runFoldText_clear _ _ (fun p hp => hasOcc_nil_of_ne p.1 (hps p hp))
  have hslide : slideAt (Pres.mk (prs.slides.map (fun sl =>
      PSlide.mk (sl.shapes.map (fun sh => applyPairsShape sh ps))))) i =
      PSlide.mk ((slideAt prs i).shapes.map (fun sh => applyPairsShape sh ps)) := by
    show (prs.slides.map (fun sl =>
        PSlide.mk (sl.shapes.map (fun sh => applyPairsShape sh ps)))).getD i
      (PSlide.mk []) = _
    exact getD_map prs.slides
      (fun sl => PSlide.mk (sl.shapes.map (fun sh => applyPairsShape sh ps)))
      (PSlide.mk []) i
  have hshape : shapeAt (Pres.mk (prs.slides.map (fun sl =>
      PSlide.mk (sl.shapes.map (fun sh => applyPairsShape sh ps))))) i j =
      applyPairsShape (shapeAt prs i j) ps := by
    show (slideAt (Pres.mk (prs.slides.map (fun sl =>
        PSlide.mk (sl.shapes.map (fun sh => applyPairsShape sh ps))))) i).shapes.getD j
      (PShape.mk false []) = _
    rw [hslide]
    rw [show (PShape.mk false [] : PShape) =
        (fun sh => applyPairsShape sh ps) (PShape.mk false [])
      from (applyPairsShape_no_frame _ rfl _).symm]
    rw [getD_map]
    rfl
  have hdecomp := applyPairsShape_decomp ps hps (shapeAt prs i j) htf
  have hpar : (applyPairsShape (shapeAt prs i j) ps).paragraphs.getD k (PPara.mk []) =
      PPara.mk (((shapeAt prs i j).paragraphs.getD k (PPara.mk [])).runs.map
        (fun r => PRun.mk (runFoldText ps r.text))) := by
    rw [hdecomp]
    exact getD_map (shapeAt prs i j).paragraphs
      (fun para => PPara.mk (para.runs.map (fun r =>
        PRun.mk (runFoldText ps r.text)))) (PPara.mk []) k
  have hrun : (PPara.mk (((shapeAt prs i j).paragraphs.getD k (PPara.mk [])).runs.map
        (fun r => PRun.mk (runFoldText ps r.text)))).runs.getD l (PRun.mk []) =
      PRun.mk (runFoldText ps
        ((((shapeAt prs i j).paragraphs.getD k (PPara.mk [])).runs.getD l
          (PRun.mk [])).text)) := by
    show (((shapeAt prs i j).paragraphs.getD k (PPara.mk [])).runs.map
        (fun r => PRun.mk (runFoldText ps r.text))).getD l (PRun.mk []) = _
    have hg := getD_map (((shapeAt prs i j).paragraphs.getD k (PPara.mk [])).runs)
      (fun r => PRun.mk (runFoldText ps r.text)) (PRun.mk []) l
    simp only [hps0] at hg
    exact hg
  show (((shapeAt (Pres.mk (prs.slides.map (fun sl =>
      PSlide.mk (sl.shapes.map (fun sh =>
        applyPairsShape sh ps))))) i j).paragraphs.getD k (PPara.mk [])).runs.getD
      l (PRun.mk [])).text = _
  rw [hshape, hpar, hrun]
  rfl

theorem runTextAt_populate (prs : Pres) (d : SanRecord) (i j k l : Nat)
    (htf : (shapeAt prs i j).has_text_frame = true) :
    runTextAt (populateTemplate prs d) i j k l =
      runFoldText (placeholderPairs d) (runTextAt prs i j k l) :=
  runTextAt_populate_gen (placeholderPairs d)
    (fun p hp => placeholderTokens_ne_nil p.1 (placeholderPairs_fst d p hp))
    prs i j k l htf

theorem runFoldText_zip_clear (toks : List PyStr) :
    ∀ (vals : List PyStr) (t : PyStr), (∀ tok ∈ toks, hasOcc tok t = false) →
      runFoldText (toks.zip vals) t = t := by
  induction toks with
  | nil => intro vals t _; rfl
  | cons a toks ih =>
    intro vals t h
    cases vals with
    | nil => rfl
    | cons v vals =>
      show runFoldText (toks.zip vals) (runTextStep t (a, v)) = t
      rw [runTextStep_clear t (a, v) (h a (List.mem_cons_self a toks))]
      exact ih vals t (fun tok htok => h tok (List.mem_cons_of_mem a htok))

theorem runFoldText_name (d : SanRecord)
    (hname : d.case_study_name = "Data Migration Overhaul".data) :
    runFoldText (placeholderPairs d) ("Insert name of case study".data) =
      "Data Migration Overhaul".data := by
  have hpairs : placeholderPairs d =
      ("Insert name of case study".data, d.case_study_name) ::
        (["Insert Category".data, "Insert Function".data,
          "Insert Challenge Here".data, "Insert Solution Here".data,
          "Insert Results Here".data, "TagOne".data, "TagTwo".data, "TagThree".data,
          "Business Category 1".data, "Business Category 2".data,
          "Business Category 3".data, "Business Category 4".data,
          "Business Category 5".data].zip
         [d.category, d.function, d.challenge, d.solution, d.results,
          d.hashtags.getD 0 [], d.hashtags.getD 1 [], d.hashtags.getD 2 [],
          d.business_categories.getD 0 [], d.business_categories.getD 1 [],
          d.business_categories.getD 2 [], d.business_categories.getD 3 [],
          d.business_categories.getD 4 []]) := rfl
  rw [hpairs, hname]
  show List.foldl runTextStep ("Insert name of case study".data)
      (("Insert name of case study".data, "Data Migration Overhaul".data) ::
        (["Insert Category".data, "Insert Function".data,
          "Insert Challenge Here".data, "Insert Solution Here".data,
          "Insert Results Here".data, "TagOne".data, "TagTwo".data, "TagThree".data,
          "Business Category 1".data, "Business Category 2".data,
          "Business Category 3".data, "Business Category 4".data,
          "Business Category 5".data].zip
         [d.category, d.function, d.challenge, d.solution, d.results,
          d.hashtags.getD 0 [], d.hashtags.getD 1 [], d.hashtags.getD 2 [],
          d.business_categories.getD 0 [], d.business_categories.getD 1 [],
          d.business_categories.getD 2 [], d.business_categories.getD 3 [],
          d.business_categories.getD 4 []])) =
    "Data Migration Overhaul".data
  rw [List.foldl_cons]
  rw [show runTextStep ("Insert name of case study".data)
      ("Insert name of case study".data, "Data Migration Overhaul".data) =
      "Data Migration Overhaul".data from by decide]
  refine runFoldText_zip_clear _ _ _ ?_
  intro tok htok
  fin_cases htok <;> decide

/-- Counterexample template for claim C3: a single run whose text
strictly contains the name placeholder among other characters. -/
def presCex : Pres :=
  Pres.mk [PSlide.mk [PShape.mk true
    [PPara.mk [PRun.mk ("xInsert name of case study".data)]]]]

/-- A sanitized record whose case-study name is the one of the claim. -/
def recDMO : SanRecord where
  case_study_name := "Data Migration Overhaul".data
  category := []
  function := []
  challenge := []
  solution := []
  results := []
  hashtags := []
  business_categories := []

/-- Counterexample to claim C3 as stated: a run whose text contains the
name placeholder as a strict substring keeps its other characters, so
its text after population is not exactly the replacement value. -/
theorem claim_C3_cex :
    hasOcc ("Insert name of case study".data) (runTextAt presCex 0 0 0 0) = true ∧
    runTextAt (populateTemplate presCex recDMO) 0 0 0 0 =
      "xData Migration Overhaul".data ∧
    runTextAt (populateTemplate presCex recDMO) 0 0 0 0 ≠
      "Data Migration Overhaul".data := by
  refine ⟨by decide, by decide, by decide⟩

/-- Claim C3 amended: for every template, slide, shape with a text
frame, and run, if the run's text is exactly the name placeholder and
the sanitized record has case_study_name "Data Migration Overhaul",
the populated run's text is exactly "Data Migration Overhaul"; and a
run whose text contains no placeholder token at all is left
character-for-character unchanged.  (When a run merely contains the
placeholder as a strict substring, only that substring is replaced.) -/
theorem claim_C3_amended_thm (prs : Pres) (d : SanRecord) (i j k l : Nat)
    (hname : d.case_study_name = "Data Migration Overhaul".data)
    (htf : (shapeAt prs i j).has_text_frame = true) :
    (runTextAt prs i j k l = "Insert name of case study".data →
      runTextAt (populateTemplate prs d) i j k l = "Data Migration Overhaul".data) ∧
    ((∀ t_ ∈ placeholderTokens, hasOcc t_ (runTextAt prs i j k l) = false) →
      runTextAt (populateTemplate prs d) i j k l = runTextAt prs i j k l) := by
  constructor
  · intro hrun
    rw [runTextAt_populate prs d i j k l htf, hrun]
    exact runFoldText_name d hname
  · intro hclear
    rw [runTextAt_populate prs d i j k l htf]
    exact runFoldText_clear _ _
      (fun p hp => hclear p.1 (placeholderPairs_fst d p hp))

/-- A witness template whose only run is exactly the name placeholder. -/
def presWitness : Pres :=
  Pres.mk [PSlide.mk [PShape.mk true
    [PPara.mk [PRun.mk ("Insert name of case study".data)]]]]

/-- Witness for amended claim C3 at a concrete template and record. -/
theorem claim_C3_witness :
    runTextAt (populateTemplate presWitness recDMO) 0 0 0 0 =
      "Data Migration Overhaul".data :=
  (claim_C3_amended_thm presWitness recDMO 0 0 0 0 rfl rfl).1 rfl

/-! Lemmas about single-character replacement and stripping, used for
the sanitizer idempotence analysis. -/

theorem pyReplaceGo_char (c : Char) :
    ∀ (n : Nat) (s : PyStr), s.length ≤ n →
      pyReplaceGo [c] [] n s = s.filter (fun x => !(x == c)) := by
  intro n
  induction n with
  | zero =>
    intro s h
    cases s with
    | nil => rfl
    | cons x xs => simp at h
  | succ n ih =>
    intro s h
    cases s with
    | nil => rfl
    | cons x xs =>
      show (if [c].isPrefixOf (x :: xs) then
          [] ++ pyReplaceGo [c] [] n (xs.drop 0) else x :: pyReplaceGo [c] [] n xs) = _
      have hxs : xs.length ≤ n := by
        simp only [List.length_cons] at h
        omega
      have hpre : [c].isPrefixOf (x :: xs) = (c == x) := by
        show ((c == x) && List.isPrefixOf [] xs) = (c == x)
        simp [List.isPrefixOf]
      by_cases hx : c = x
      · rw [if_pos (by rw [hpre]; exact beq_iff_eq.mpr hx), List.drop_zero,
          List.nil_append, ih xs hxs]
        rw [List.filter_cons_of_neg (by simp [hx.symm])]
      · rw [if_neg (by rw [hpre]; simp [hx]), ih xs hxs,
          List.filter_cons_of_pos (by simp [Ne.symm hx])]

theorem pyReplace_char (c : Char) (s : PyStr) :
    pyReplace [c] [] s = s.filter (fun x => !(x == c)) :=
  pyReplaceGo_char c s.length s (le_refl _)

theorem mem_pyStripLeft (s : PyStr) : ∀ c ∈ pyStripLeft s, c ∈ s :=
  fun _ hc => (List.dropWhile_sublist _).subset hc

theorem mem_pyStripRight (s : PyStr) : ∀ c ∈ pyStripRight s, c ∈ s := by
  intro c hc
  rw [pyStripRight, List.mem_reverse] at hc
  have := (List.dropWhile_sublist (l := s.reverse) (p := isPySpace)).subset hc
  rwa [List.mem_reverse] at this

theorem mem_pyStrip (s : PyStr) : ∀ c ∈ pyStrip s, c ∈ s :=
  fun c hc => mem_pyStripLeft s c (mem_pyStripRight (pyStripLeft s) c hc)

theorem mem_intercalate_space (toks : List PyStr) :
    ∀ c ∈ List.intercalate [' '] toks, c = ' ' ∨ ∃ tok ∈ toks, c ∈ tok := by
  induction toks with
  | nil =>
    intro c hc
    rw [intercalate_nil_sep] at hc
    simp at hc
  | cons a toks ih =>
    cases toks with
    | nil =>
      intro c hc
      rw [intercalate_single] at hc
      exact Or.inr ⟨a, List.mem_cons_self a [], hc⟩
    | cons b toks2 =>
      intro c hc
      rw [intercalate_cons_cons, List.append_assoc, List.singleton_append] at hc
      rcases List.mem_append.mp hc with hca | hcr
      · exact Or.inr ⟨a, List.mem_cons_self a _, hca⟩
      · rcases List.mem_cons.mp hcr with rfl | hcr2
        · exact Or.inl rfl
        · rcases ih c hcr2 with hsp | ⟨tok, htok, hctok⟩
          · exact Or.inl hsp
          · exact Or.inr ⟨tok, List.mem_cons_of_mem a htok, hctok⟩

theorem dropWhile_idem (p : Char → Bool) (l : PyStr) :
    (l.dropWhile p).dropWhile p = l.dropWhile p := by
  induction l with
  | nil => rfl
  | cons c cs ih =>
    by_cases hc : p c = true
    · rw [List.dropWhile_cons_of_pos hc]
      exact ih
    · rw [List.dropWhile_cons_of_neg hc, List.dropWhile_cons_of_neg hc]

theorem pyStripLeft_head (s : PyStr) :
    ∀ c cs, pyStripLeft s = c :: cs → isPySpace c = false := by
  induction s with
  | nil =>
    intro c cs h
    exact absurd h (by simp [pyStripLeft])
  | cons x xs ih =>
    intro c cs h
    by_cases hx : isPySpace x = true
    · rw [pyStripLeft, List.dropWhile_cons_of_pos hx] at h
      exact ih c cs h
    · rw [pyStripLeft, List.dropWhile_cons_of_neg hx] at h
      injection h with h1 _
      rw [← h1]
      exact Bool.not_eq_true _ ▸ hx

theorem pyStripRight_idem (s : PyStr) : pyStripRight (pyStripRight s) = pyStripRight s := by
  show (((s.reverse.dropWhile isPySpace).reverse).reverse.dropWhile isPySpace).reverse = _
  rw [List.reverse_reverse, dropWhile_idem]
  rfl

theorem pyStripLeft_stripRight_stripLeft (s : PyStr) :
    pyStripLeft (pyStripRight (pyStripLeft s)) = pyStripRight (pyStripLeft s) := by
  cases hS : pyStripRight (pyStripLeft s) with
  | nil => rfl
  | cons c cs =>
    obtain ⟨u, _, hdec⟩ := pyStripRight_decomp (pyStripLeft s)
    rw [hS] at hdec
    have hhead : isPySpace c = false := by
      refine pyStripLeft_head s c (cs ++ u) ?_
      rw [hdec]
      rfl
    show (c :: cs).dropWhile isPySpace = c :: cs
    rw [List.dropWhile_cons_of_neg (by rw [hhead]; simp)]

theorem pyStrip_idem (s : PyStr) : pyStrip (pyStrip s) = pyStrip s := by
  show pyStripRight (pyStripLeft (pyStripRight (pyStripLeft s))) = _
  rw [pyStripLeft_stripRight_stripLeft, pyStripRight_idem]
  rfl

/-! Idempotence of the individual sanitization rules. -/

theorem sanitizeCaseName_eq_default (s : PyStr)
    (hj : List.intercalate [' ']
      ((pySplitWs (pyReplace [')'] [] (pyReplace ['('] []
        (pyStrip s)))).take 6) = []) :
    sanitizeCaseName s = "Case Study".data := by
  simp only [sanitizeCaseName]
  rw [if_pos hj]

theorem sanitizeCaseName_eq_join (s : PyStr)
    (hj : List.intercalate [' ']
      ((pySplitWs (pyReplace [')'] [] (pyReplace ['('] []
        (pyStrip s)))).take 6) ≠ []) :
    sanitizeCaseName s = List.intercalate [' ']
      ((pySplitWs (pyReplace [')'] [] (pyReplace ['('] []
        (pyStrip s)))).take 6) := by
  simp only [sanitizeCaseName]
  rw [if_neg hj]

theorem noParens_mem (s : PyStr) :
    ∀ c ∈ pyReplace [')'] [] (pyReplace ['('] [] s), c ≠ '(' ∧ c ≠ ')' := by
  intro c hc
  rw [pyReplace_char, pyReplace_char] at hc
  have h2 := List.mem_filter.mp hc
  have h1 := List.mem_filter.mp h2.1
  constructor
  · have := h1.2
    simpa using this
  · have := h2.2
    simpa using this

theorem sanitizeCaseName_idem (s : PyStr) :
    sanitizeCaseName (sanitizeCaseName s) = sanitizeCaseName s := by
  by_cases hj : List.intercalate [' ']
      ((pySplitWs (pyReplace [')'] [] (pyReplace ['('] []
        (pyStrip s)))).take 6) = []
  · rw [sanitizeCaseName_eq_default s hj]
    decide
  · rw [sanitizeCaseName_eq_join s hj]
    set toks := (pySplitWs (pyReplace [')'] [] (pyReplace ['('] []
      (pyStrip s)))).take 6 with htoks
    have htoksub : ∀ tok ∈ toks, tok ∈ pySplitWs (pyReplace [')'] [] (pyReplace ['('] []
        (pyStrip s))) := fun tok htok => List.take_subset 6 _ htok
    have hwf : ∀ tok ∈ toks, tok ≠ [] ∧ ∀ c ∈ tok, isPySpace c = false :=
      fun tok htok => pySplitWs_tok _ tok (htoksub tok htok)
    have hnp : ∀ tok ∈ toks, ∀ c ∈ tok, c ≠ '(' ∧ c ≠ ')' :=
      fun tok htok c hc =>
        noParens_mem (pyStrip s) c
          (pySplitWs_tok_subset _ tok (htoksub tok htok) c hc)
    have hJmem : ∀ c ∈ List.intercalate [' '] toks, c ≠ '(' ∧ c ≠ ')' := by
      intro c hc
      rcases mem_intercalate_space toks c hc with rfl | ⟨tok, htok, hctok⟩
      · exact ⟨by decide, by decide⟩
      · exact hnp tok htok c hctok
    have hrm1 : pyReplace ['('] [] (pyStrip (List.intercalate [' '] toks)) =
        pyStrip (List.intercalate [' '] toks) := by
      rw [pyReplace_char]
      refine List.filter_eq_self.mpr ?_
      intro c hc
      have := (hJmem c (mem_pyStrip _ c hc)).1
      simpa using this
    have hrm2 : pyReplace [')'] [] (pyStrip (List.intercalate [' '] toks)) =
        pyStrip (List.intercalate [' '] toks) := by
      rw [pyReplace_char]
      refine List.filter_eq_self.mpr ?_
      intro c hc
      have := (hJmem c (mem_pyStrip _ c hc)).2
      simpa using this
    have hsplit : pySplitWs (pyReplace [')'] [] (pyReplace ['('] []
        (pyStrip (List.intercalate [' '] toks)))) = toks := by
      rw [hrm1, hrm2]
      show pySplitWs (pyStrip (List.intercalate [' '] toks)) = toks
      rw [pySplitWs_strip]
      exact pySplitWs_intercalate toks hwf
    have htake : toks.take 6 = toks := by
      rw [htoks, List.take_take, Nat.min_self]
    rw [sanitizeCaseName_eq_join _ (by rw [hsplit, htake]; exact hj), hsplit, htake]

theorem sanitizeNarrative_count (s : PyStr) :
    (pySplitOnDot (sanitizeNarrative s)).length ≤ 4 := by
  simp only [sanitizeNarrative]
  by_cases h4 : 4 < (pySplitOnDot s).length
  · rw [if_pos h4]
    refine le_trans (pySplitOnDot_strip_len _) ?_
    rw [pySplitOnDot_intercalate ((pySplitOnDot s).take 4)
      (by
        have : ((pySplitOnDot s).take 4).length = 4 := by
          rw [List.length_take]
          omega
        intro hnil
        rw [hnil] at this
        simp at this)
      (fun p hp => pySplitOnDot_chunks s p (List.take_subset 4 _ hp))]
    rw [List.length_take]
    omega
  · rw [if_neg h4]
    exact le_trans (pySplitOnDot_strip_len s) (by omega)

theorem sanitizeNarrative_of_le (t : PyStr) (h : ¬ 4 < (pySplitOnDot t).length) :
    sanitizeNarrative t = pyStrip t := by
  simp only [sanitizeNarrative]
  rw [if_neg h]

theorem sanitizeNarrative_idem (s : PyStr) :
    sanitizeNarrative (sanitizeNarrative s) = sanitizeNarrative s := by
  have hbody : sanitizeNarrative s = pyStrip (if 4 < (pySplitOnDot s).length
      then List.intercalate sepDot ((pySplitOnDot s).take 4) else s) := rfl
  rw [sanitizeNarrative_of_le _ (not_lt.mpr (sanitizeNarrative_count s)), hbody,
    pyStrip_idem, ← hbody]

theorem tagClean_idem (t : PyStr) : tagClean (tagClean t) = tagClean t := by
  set toks := (pySplitWs (pyStrip (pyReplace ['#'] [] t))).take 3 with htoks
  have htoksub : ∀ tok ∈ toks,
      tok ∈ pySplitWs (pyStrip (pyReplace ['#'] [] t)) :=
    fun tok htok => List.take_subset 3 _ htok
  have hwf : ∀ tok ∈ toks, tok ≠ [] ∧ ∀ c ∈ tok, isPySpace c = false :=
    fun tok htok => pySplitWs_tok _ tok (htoksub tok htok)
  have hhash : ∀ tok ∈ toks, ∀ c ∈ tok, c ≠ '#' := by
    intro tok htok c hc
    have hmem := mem_pyStrip _ c
      (pySplitWs_tok_subset _ tok (htoksub tok htok) c hc)
    rw [pyReplace_char] at hmem
    have := (List.mem_filter.mp hmem).2
    simpa using this
  have hJ : ∀ c ∈ List.intercalate [' '] toks, c ≠ '#' := by
    intro c hc
    rcases mem_intercalate_space toks c hc with rfl | ⟨tok, htok, hctok⟩
    · decide
    · exact hhash tok htok c hctok
  show List.intercalate [' ']
      ((pySplitWs (pyStrip (pyReplace ['#'] []
        (List.intercalate [' '] toks)))).take 3) = _
  have hrm : pyReplace ['#'] [] (List.intercalate [' '] toks) =
      List.intercalate [' '] toks := by
    rw [pyReplace_char]
    refine List.filter_eq_self.mpr ?_
    intro c hc
    have := hJ c hc
    simpa using this
  rw [hrm, pySplitWs_strip, pySplitWs_intercalate toks hwf, htoks, List.take_take,
    Nat.min_self]
  rfl

theorem bcClean_idem (x : PyStr) : bcClean (bcClean x) = bcClean x := by
  show pyStrip (List.intercalate [' '] ((pySplitWs (bcClean x)).take 2)) = bcClean x
  rw [bcClean_tokens, List.take_take]
  rfl

/-! Idempotence of the list-level sanitization pipelines. -/

theorem cleanTagsList_append (a b : List PyStr) :
    cleanTagsList (a ++ b) = cleanTagsList a ++ cleanTagsList b := by
  induction a with
  | nil => rfl
  | cons t ts ih =>
    show cleanTagsList (t :: (ts ++ b)) = _
    simp only [cleanTagsList]
    split
    · exact ih
    · rw [List.cons_append, ih]

theorem cleanTagsList_norm (l : List PyStr)
    (h : ∀ x ∈ l, tagClean x = x ∧ x ≠ []) : cleanTagsList l = l := by
  induction l with
  | nil => rfl
  | cons t ts ih =>
    obtain ⟨ht1, ht2⟩ := h t (List.mem_cons_self t ts)
    simp only [cleanTagsList]
    rw [if_neg (by rw [ht1]; exact ht2), ht1,
      ih (fun x hx => h x (List.mem_cons_of_mem t hx))]

theorem cleanTagsList_replicate_nil (k : Nat) :
    cleanTagsList (List.replicate k ([] : PyStr)) = [] := by
  induction k with
  | zero => rfl
  | succ k ih =>
    rw [List.replicate_succ]
    simp only [cleanTagsList]
    rw [if_pos (by decide), ih]

theorem dedupKeys_replicate_mem (k : Nat) :
    ∀ seen, ([] : PyStr) ∈ seen → dedupKeys (List.replicate k ([] : PyStr)) seen = [] := by
  induction k with
  | zero => intro seen _; rfl
  | succ k ih =>
    intro seen hmem
    rw [List.replicate_succ]
    simp only [dedupKeys]
    rw [if_pos hmem]
    exact ih seen hmem

theorem dedupKeys_pad (cleaned : List PyStr) :
    ∀ (seen : List PyStr) (k : Nat), cleaned.Nodup →
      (∀ a ∈ cleaned, a ≠ [] ∧ a ∉ seen) → ([] : PyStr) ∉ seen →
      dedupKeys (cleaned ++ List.replicate k []) seen =
        cleaned ++ (if k = 0 then [] else [[]]) := by
  induction cleaned with
  | nil =>
    intro seen k _ _ hnil
    cases k with
    | zero => rfl
    | succ k =>
      rw [List.nil_append, List.replicate_succ]
      simp only [dedupKeys]
      rw [if_neg hnil, dedupKeys_replicate_mem k ([] :: seen) (List.mem_cons_self _ _)]
      simp
  | cons x xs ih =>
    intro seen k hnd hmem hnil
    obtain ⟨hx1, hx2⟩ := hmem x (List.mem_cons_self x xs)
    rw [List.cons_append]
    simp only [dedupKeys]
    rw [if_neg hx2]
    rw [ih (x :: seen) k (List.Nodup.of_cons hnd)
      (fun a ha => ⟨(hmem a (List.mem_cons_of_mem x ha)).1, by
        intro hmem2
        rcases List.mem_cons.mp hmem2 with rfl | hmem3
        · exact (List.nodup_cons.mp hnd).1 ha
        · exact (hmem a (List.mem_cons_of_mem x ha)).2 hmem3⟩)
      (by
        intro hmem2
        rcases List.mem_cons.mp hmem2 with heq | hmem3
        · exact hx1 heq.symm
        · exact hnil hmem3)]
    rfl

theorem sanitizeHashtags_filter (hs : List PyStr) :
    (sanitizeHashtags hs).filter (fun t => !t.isEmpty) =
      cleanTagsList ((dedupKeys hs []).take 3) := by
  simp only [sanitizeHashtags]
  exact filter_pad _ _ (fun a ha => (cleanTagsList_mem _ a ha).1)

theorem sanitizeHashtags_idem_nodup (hs : List PyStr)
    (h : (cleanTagsList ((dedupKeys hs []).take 3)).Nodup) :
    sanitizeHashtags (sanitizeHashtags hs) = sanitizeHashtags hs := by
  set cleaned := cleanTagsList ((dedupKeys hs []).take 3) with hcleaned
  have hlen : cleaned.length ≤ 3 :=
    le_trans (cleanTagsList_length_le _) (List.length_take_le 3 _)
  have hmem : ∀ a ∈ cleaned, a ≠ [] ∧ tagClean a = a := by
    intro a ha
    obtain ⟨h1, t0, _, h2⟩ := cleanTagsList_mem _ a ha
    refine ⟨h1, ?_⟩
    rw [h2, tagClean_idem]
  have hsan : sanitizeHashtags hs = cleaned ++ List.replicate (3 - cleaned.length) [] :=
    rfl
  rw [hsan]
  show cleanTagsList ((dedupKeys (cleaned ++ List.replicate (3 - cleaned.length) []) []).take 3)
      ++ List.replicate (3 - (cleanTagsList ((dedupKeys (cleaned ++
        List.replicate (3 - cleaned.length) []) []).take 3)).length) [] = _
  rw [dedupKeys_pad cleaned [] (3 - cleaned.length) h
    (fun a ha => ⟨(hmem a ha).1, by simp⟩) (by simp)]
  have hcore : cleanTagsList (((cleaned ++ (if 3 - cleaned.length = 0 then [] else [[]]))).take 3)
      = cleaned := by
    by_cases hk : 3 - cleaned.length = 0
    · rw [if_pos hk, List.append_nil]
      have h3 : cleaned.length = 3 := by omega
      rw [List.take_of_length_le (le_of_eq h3)]
      exact cleanTagsList_norm cleaned (fun x hx => ⟨(hmem x hx).2, (hmem x hx).1⟩)
    · rw [if_neg hk]
      have h3 : cleaned.length + 1 ≤ 3 := by omega
      rw [List.take_of_length_le (by simp; omega)]
      rw [cleanTagsList_append, cleanTagsList_norm cleaned
        (fun x hx => ⟨(hmem x hx).2, (hmem x hx).1⟩)]
      rw [show cleanTagsList [[]] = [] from by decide, List.append_nil]
  rw [hcore]

theorem cleanBCsAux_replicate (k : Nat) :
    ∀ seen, cleanBCsAux (List.replicate k ([] : PyStr)) seen = [] := by
  induction k with
  | zero => intro seen; rfl
  | succ k ih =>
    intro seen
    rw [List.replicate_succ]
    simp only [cleanBCsAux]
    rw [if_neg (by simp [show bcClean [] = [] from rfl])]
    exact ih seen

theorem cleanBCsAux_norm_pad (l : List PyStr) :
    ∀ (seen : List PyStr) (k : Nat),
      (∀ a ∈ l, bcClean a = a ∧ a ≠ []) →
      l.Pairwise (fun a b => pyLower a ≠ pyLower b) →
      (∀ a ∈ l, pyLower a ∉ seen) →
      cleanBCsAux (l ++ List.replicate k []) seen = l := by
  induction l with
  | nil => intro seen k _ _ _; exact cleanBCsAux_replicate k seen
  | cons x xs ih =>
    intro seen k hnorm hpw hseen
    obtain ⟨hx1, hx2⟩ := hnorm x (List.mem_cons_self x xs)
    rw [List.cons_append]
    simp only [cleanBCsAux]
    rw [if_pos (by rw [hx1]; exact ⟨hx2, hseen x (List.mem_cons_self x xs)⟩), hx1]
    rw [ih (pyLower x :: seen) k
      (fun a ha => hnorm a (List.mem_cons_of_mem x ha))
      (List.Pairwise.of_cons hpw)
      (fun a ha => by
        intro hmem
        rcases List.mem_cons.mp hmem with heq | hmem2
        · exact (List.pairwise_cons.mp hpw).1 a ha heq.symm
        · exact hseen a (List.mem_cons_of_mem x ha) hmem2)]

theorem sanitizeBusinessCategories_idem (bcs : List PyStr) :
    sanitizeBusinessCategories (sanitizeBusinessCategories bcs) =
      sanitizeBusinessCategories bcs := by
  set clean := cleanBCsAux bcs [] with hclean
  have hspec := cleanBCsAux_spec bcs []
  have hmem : ∀ a ∈ clean, bcClean a = a ∧ a ≠ [] := by
    intro a ha
    obtain ⟨h1, _, x0, _, h2⟩ := hspec.1 a ha
    exact ⟨by rw [h2, bcClean_idem], h1⟩
  have hpw := hspec.2
  have hout : sanitizeBusinessCategories bcs =
      (clean ++ List.replicate (5 - clean.length) []).take 5 := rfl
  rcases le_or_lt 5 clean.length with h5 | h5
  · have hz : 5 - clean.length = 0 := Nat.sub_eq_zero_of_le h5
    have hout2 : sanitizeBusinessCategories bcs = clean.take 5 := by
      rw [hout, hz, List.replicate_zero, List.append_nil]
    have hlen5 : (clean.take 5).length = 5 := by
      rw [List.length_take]
      omega
    rw [hout2]
    show (cleanBCsAux (clean.take 5) [] ++
      List.replicate (5 - (cleanBCsAux (clean.take 5) []).length) []).take 5 = _
    have hcba : cleanBCsAux (clean.take 5) [] = clean.take 5 := by
      have := cleanBCsAux_norm_pad (clean.take 5) [] 0
        (fun a ha => hmem a (List.take_subset 5 _ ha))
        (hpw.sublist (List.take_sublist 5 _))
        (fun a _ => by simp)
      rwa [List.replicate_zero, List.append_nil] at this
    rw [hcba, hlen5]
    rw [show (5 : Nat) - 5 = 0 from rfl, List.replicate_zero, List.append_nil]
    rw [List.take_of_length_le (le_of_eq hlen5)]
  · have hout2 : sanitizeBusinessCategories bcs =
        clean ++ List.replicate (5 - clean.length) [] := by
      rw [hout]
      refine List.take_of_length_le ?_
      simp only [List.length_append, List.length_replicate]
      omega
    rw [hout2]
    show (cleanBCsAux (clean ++ List.replicate (5 - clean.length) []) [] ++
      List.replicate (5 - (cleanBCsAux (clean ++
        List.replicate (5 - clean.length) []) []).length) []).take 5 = _
    rw [cleanBCsAux_norm_pad clean [] (5 - clean.length)
      hmem hpw (fun a _ => by simp)]
    refine List.take_of_length_le ?_
    simp only [List.length_append, List.length_replicate]
    omega

/-- Counterexample to claim C6 as stated: the raw tags "#x" and "x"
sanitize to the hashtag list ["x", "x", ""], and sanitizing that list
again deduplicates the two equal entries, so the second pass changes
the record. -/
theorem claim_C6_cex :
    sanitizeRecord (sanToRaw (sanitizeRecord
      { case_study_name := none, category := none, function := none,
        challenge := none, solution := none, results := none,
        business_categories := none, hashtags := some ["#x".data, "x".data] })) ≠
    sanitizeRecord
      { case_study_name := none, category := none, function := none,
        challenge := none, solution := none, results := none,
        business_categories := none, hashtags := some ["#x".data, "x".data] } := by
  decide

/-- Claim C6 amended: the sanitizer is idempotent on every record whose
sanitized hashtag list has no duplicate non-empty entries (the name,
narrative, category, function and business-category rules are
unconditionally idempotent; the hashtag rule alone can differ on a
second pass, exactly when distinct raw tags cleaned to equal
strings). -/
theorem claim_C6_amended_thm (r : RawRecord)
    (h : ((sanitizeRecord r).hashtags.filter (fun t => !t.isEmpty)).Nodup) :
    sanitizeRecord (sanToRaw (sanitizeRecord r)) = sanitizeRecord r := by
  cases r with
  | mk n c f ch so re bc ht =>
    have hh : (cleanTagsList ((dedupKeys (ht.getD []) []).take 3)).Nodup := by
      rw [← sanitizeHashtags_filter]
      exact h
    simp only [sanitizeRecord, sanToRaw, Option.getD_some, SanRecord.mk.injEq]
    exact ⟨sanitizeCaseName_idem _, trivial, trivial, sanitizeNarrative_idem _,
      sanitizeNarrative_idem _, sanitizeNarrative_idem _,
      sanitizeHashtags_idem_nodup _ hh, sanitizeBusinessCategories_idem _⟩

/-- Witness for amended claim C6 at a concrete record. -/
theorem claim_C6_witness :
    sanitizeRecord (sanToRaw (sanitizeRecord
      { case_study_name := some "Data Platform".data, category := none,
        function := none, challenge := none, solution := none, results := none,
        business_categories := some ["Data Governance".data],
        hashtags := some ["Data Quality".data] })) =
    sanitizeRecord
      { case_study_name := some "Data Platform".data, category := none,
        function := none, challenge := none, solution := none, results := none,
        business_categories := some ["Data Governance".data],
        hashtags := some ["Data Quality".data] } :=
  claim_C6_amended_thm _ (by decide)
